import Mathlib

/-!
Verification of the CSV schema-diff script (`src/main.py`).

The script discovers `.csv` files in a `./data/` directory and combines them
into a single table with three backends (pandas, polars, duckdb), contrasting
strict concatenation (which requires identical schemas) with relaxed /
diagonal / union-by-name concatenation (which takes the union of all column
sets and fills missing cells with null).

The embedding below models a CSV file as a header plus raw string records,
a table as an ordered list of column names plus rows of optional cell values
(`none` is a null cell), and the library operations the script invokes as
Lean functions over these types.
-/

namespace CsvDiff

/-- A raw CSV file: a header line of column names and data records of raw
string fields, as consumed by `read_csv(..., has_header=True)`. -/
structure CsvFile where
  header : List String
  records : List (List String)
deriving DecidableEq, Repr

/-- A cell of a loaded table: `none` is a null / missing value. -/
abbrev Cell := Option String

/-- An in-memory table: ordered column names plus row-major data.
Models the dataframe produced by the pandas / polars / duckdb readers. -/
structure Table where
  cols : List String
  rows : List (List Cell)
deriving DecidableEq, Repr

/-- Well-formedness of a table: distinct column names and rectangular rows. -/
def Table.WF (t : Table) : Prop :=
  t.cols.Nodup ∧ ∀ r ∈ t.rows, r.length = t.cols.length

/-- Modelled from the spec: CSV field parsing by the readers; an empty field
is a null cell, any other field is kept as its string value. -/
def parseField (s : String) : Cell :=
  if s = "" then none else some s

/-- Modelled from the spec: `read_csv(path, has_header=True)` — the header
line gives the column names, each record becomes one row of parsed cells. -/
def readCsv (f : CsvFile) : Table :=
  ⟨f.header, f.records.map (fun rec => rec.map parseField)⟩

/-- Python's `s.endswith(suffix)`, stated on the string's character list so
that concrete instances evaluate inside the logic. -/
def strEndsWith (s suffix : String) : Bool := suffix.data.isSuffixOf s.data

/-- Python's `s.startswith(pre)` (the hidden-entry test for glob), on the
string's character list. -/
def strStartsWith (s pre : String) : Bool := pre.data.isPrefixOf s.data

/-- `os.path.join("data", c)` for a relative entry name `c` (main.py line 8). -/
def os_path_join (a b : String) : String := a ++ "/" ++ b

/-- File discovery (main.py lines 7-8): filter the directory listing to the
entries whose name ends in `.csv`, in listing order, and join each onto
the `data` directory. -/
def csv_files (all_files : List String) : List String :=
  (all_files.filter (fun c => strEndsWith c ".csv")).map (fun c => os_path_join "data" c)

/-- First index of a column name in a column list, if present. -/
def idxOf? (c : String) : List String → Option Nat
  | [] => none
  | x :: xs => if x = c then some 0 else (idxOf? c xs).map (· + 1)

/-- Value of a row at a named column: the cell at the column's index, or
null when the row's schema lacks the column. -/
def rowLookup (cols : List String) (row : List Cell) (c : String) : Cell :=
  match idxOf? c cols with
  | some i => (row[i]?).getD none
  | none => none

/-- Append a column name to an accumulator unless already present. -/
def insertCol (acc : List String) (c : String) : List String :=
  if c ∈ acc then acc else acc ++ [c]

/-- Union of the column lists of a list of tables, in order of first
appearance — the column order produced by diagonal / union-by-name
concatenation. -/
def unionCols (ts : List Table) : List String :=
  ts.foldl (fun acc t => t.cols.foldl insertCol acc) []

/-- Align one row of a table onto a target column list: for each target
column take the row's value there, null when the row's schema lacks it. -/
def alignRow (cols : List String) (row : List Cell) (target : List String) : List Cell :=
  target.map (fun c => rowLookup cols row c)

/-- Modelled from the spec: relaxed / diagonal / union-by-name concatenation
(`pl.concat(how="diagonal_relaxed")`, duckdb `union_by_name = true`): the
result's columns are the union of all inputs' columns; each input's rows
follow in input order, aligned onto the union schema with nulls for the
columns the input lacks. -/
def diagonalRelaxedConcat (ts : List Table) : Table :=
  ⟨unionCols ts,
   (ts.map (fun t => t.rows.map (fun r => alignRow t.cols r (unionCols ts)))).flatten⟩

/-- Errors the script can raise; nothing in the script catches any of them. -/
inductive Err where
  | schemaMismatch
  | fsError (path : String)
  | emptyInput
deriving DecidableEq, Repr

/-- Modelled from the spec: strict / naive concatenation
(`pl.scan_csv("./data/*.csv")`, duckdb `read_csv` without `union_by_name`):
requires every input to have the head input's schema, and then stacks all
rows; raises a schema-mismatch error otherwise. -/
def strictConcat : List Table → Except Err Table
  | [] => .error .emptyInput
  | t :: ts =>
    if ts.all (fun u => u.cols == t.cols) then
      .ok ⟨t.cols, ((t :: ts).map Table.rows).flatten⟩
    else
      .error .schemaMismatch

/-- A polars lazy query plan as the script builds one: a deferred file scan
(`pl.scan_csv`, main.py lines 29-32), or a relaxed diagonal concatenation of
sub-plans (`pl.concat(how="diagonal_relaxed")` on lazy frames, line 33). -/
inductive LazyPlan where
  | scan (f : CsvFile) : LazyPlan
  | concatDR (plans : List LazyPlan) : LazyPlan
deriving Repr

/-- Modelled from the spec: `collect` materializes a lazy plan — a scan reads
its file, a concatenation node materializes its sub-plans and combines them
with the relaxed diagonal policy. -/
def collect : LazyPlan → Table
  | .scan f => readCsv f
  | .concatDR ps => diagonalRelaxedConcat (ps.attach.map (fun x => collect x.1))
decreasing_by
  simp only [LazyPlan.concatDR.sizeOf_spec]
  have := List.sizeOf_lt_of_mem x.2
  omega

/-- A pandas dataframe: a table together with its row index. -/
structure PdFrame where
  table : Table
  index : List Nat
deriving DecidableEq, Repr

/-- Modelled from the spec: `pd.read_csv` — the loaded table with the default
integer index `0..n-1` over its rows. -/
def pdReadCsv (f : CsvFile) : PdFrame :=
  ⟨readCsv f, List.range f.records.length⟩

/-- Modelled from the spec: `pd.concat(dfs, ignore_index=True)` (main.py
line 16) — column-union concatenation of the tables, with the row index
renumbered `0..n-1` instead of keeping the per-file indices. -/
def pdConcatIgnoreIndex (dfs : List PdFrame) : PdFrame :=
  let t := diagonalRelaxedConcat (dfs.map PdFrame.table)
  ⟨t, List.range t.rows.length⟩

/-- `df.head(n)`: the table restricted to its first `n` rows. -/
def Table.head (t : Table) (n : Nat) : Table :=
  ⟨t.cols, t.rows.take n⟩

/-- `df.columns`: the list of column names. -/
def Table.columnNames (t : Table) : List String :=
  t.cols

/-- The inspection step (main.py lines 19-20 and 43-44): `df.head()` and
`df.columns`, returning the previewed rows, the column names, and the table
as the rest of the run still sees it. -/
def inspect (t : Table) (n : Nat) : Table × List String × Table :=
  (t.head n, t.columnNames, t)

/-- `os.listdir(path)` over a directory map: the entries of the directory,
or a filesystem error when the directory does not exist (main.py line 7). -/
def listdir (dirs : List (String × List String)) (path : String) : Except Err (List String) :=
  match dirs.lookup path with
  | some entries => .ok entries
  | none => .error (.fsError path)

/-- Exception-propagating map, as a Python list comprehension whose body can
raise: stops at the first error, otherwise returns all results in order. -/
def mapE (f : α → Except Err β) : List α → Except Err (List β)
  | [] => .ok []
  | x :: xs =>
    match f x with
    | .error e => .error e
    | .ok y =>
      match mapE f xs with
      | .error e => .error e
      | .ok ys => .ok (y :: ys)

/-- The external world the script runs against: the result of listing
`./data/`, the per-path file reads, and the files the `data/*.csv` wildcard
resolves to. -/
structure Env where
  listing : Except Err (List String)
  readFile : String → Except Err CsvFile
  globFiles : Except Err (List CsvFile)

/-- Everything the script has computed when it reaches the end of the file. -/
structure ScriptResult where
  pandasDf : PdFrame
  polarsStrict : Table
  polarsLazy : Table
  polarsEager : Table
  duckStrict : Table
  duckRelaxed : Table
deriving Repr

/-- The whole script (main.py top to bottom), with every fallible step in the
`Except` monad and no handler anywhere: discovery, the pandas load and
concat, the strict polars glob scan, the lazy and eager relaxed polars
concats, and the strict and union-by-name duckdb reads. -/
def runScript (env : Env) : Except Err ScriptResult :=
  env.listing.bind (fun all_files =>
    (mapE env.readFile (csv_files all_files)).bind (fun pdFiles =>
      env.globFiles.bind (fun globbed =>
        (strictConcat (globbed.map readCsv)).bind (fun polarsStrict =>
          (mapE env.readFile (csv_files all_files)).bind (fun plLazyFiles =>
            (mapE env.readFile (csv_files all_files)).bind (fun plEagerFiles =>
              (strictConcat (globbed.map readCsv)).bind (fun duckStrict =>
                .ok ⟨pdConcatIgnoreIndex (pdFiles.map pdReadCsv),
                     polarsStrict,
                     collect (LazyPlan.concatDR (plLazyFiles.map LazyPlan.scan)),
                     diagonalRelaxedConcat (plEagerFiles.map readCsv),
                     duckStrict,
                     diagonalRelaxedConcat (globbed.map readCsv)⟩)))))))

/-- A directory entry with the one piece of metadata discovery cares about:
whether it is a regular file (as opposed to a subdirectory). -/
structure DirEntry where
  name : String
  isFile : Bool
deriving DecidableEq, Repr

/-- The names the listing-based discovery (os.listdir + suffix filter) keeps
from a directory: every entry whose name ends in `.csv`, hidden or not,
file or directory. -/
def listingCsvNames (entries : List DirEntry) : List String :=
  (entries.map DirEntry.name).filter (fun n => strEndsWith n ".csv")

/-- Modelled from the spec: the names the `*.csv` wildcard used by the polars
and duckdb backends reads — regular files whose name ends in `.csv`, with
hidden entries (leading dot) not matched by the wildcard. -/
def globCsvNames (entries : List DirEntry) : List String :=
  (entries.filter (fun e =>
    e.isFile && strEndsWith e.name ".csv" && !strStartsWith e.name ".")).map DirEntry.name

/-! ### Helper lemmas -/

theorem idxOf?_eq_none (c : String) : ∀ l : List String, c ∉ l → idxOf? c l = none
  | [], _ => rfl
  | x :: xs, h => by
    simp only [List.mem_cons, not_or] at h
    have hx : ¬ x = c := fun hxc => h.1 hxc.symm
    simp [idxOf?, hx, idxOf?_eq_none c xs h.2]

theorem rowLookup_of_not_mem (cols : List String) (row : List Cell) (c : String)
    (h : c ∉ cols) : rowLookup cols row c = none := by
  simp [rowLookup, idxOf?_eq_none c cols h]

theorem rowLookup_cons_self (x : String) (xs : List String) (v : Cell) (row : List Cell) :
    rowLookup (x :: xs) (v :: row) x = v := by
  simp [rowLookup, idxOf?]

theorem rowLookup_cons_ne (x : String) (xs : List String) (v : Cell) (row : List Cell)
    (c : String) (h : x ≠ c) :
    rowLookup (x :: xs) (v :: row) c = rowLookup xs row c := by
  simp only [rowLookup, idxOf?, if_neg h]
  cases hi : idxOf? c xs <;> simp [hi]

theorem rowLookup_map_self (l : List String) (f : String → Cell) (c : String) :
    rowLookup l (l.map f) c = if c ∈ l then f c else none := by
  induction l with
  | nil => simp [rowLookup, idxOf?]
  | cons x xs ih =>
    by_cases hx : x = c
    · subst hx
      simp [rowLookup_cons_self]
    · rw [List.map_cons, rowLookup_cons_ne x xs (f x) (xs.map f) c hx, ih]
      by_cases hc : c ∈ xs
      · simp [hc, List.mem_cons_of_mem x hc]
      · have hnc : c ∉ x :: xs := by
          intro hmem
          rcases List.mem_cons.mp hmem with h1 | h2
          · exact hx h1.symm
          · exact hc h2
        simp [hc, hnc]

theorem alignRow_self (cols : List String) (row : List Cell)
    (hnd : cols.Nodup) (hlen : row.length = cols.length) :
    alignRow cols row cols = row := by
  induction cols generalizing row with
  | nil =>
    cases row with
    | nil => rfl
    | cons v vs => simp at hlen
  | cons x xs ih =>
    cases row with
    | nil => simp at hlen
    | cons v vs =>
      have hnx : x ∉ xs := (List.nodup_cons.mp hnd).1
      have hnd' : xs.Nodup := (List.nodup_cons.mp hnd).2
      have hlen' : vs.length = xs.length := by simpa using hlen
      show (x :: xs).map (rowLookup (x :: xs) (v :: vs)) = v :: vs
      rw [List.map_cons, rowLookup_cons_self]
      congr 1
      have hcong : ∀ c ∈ xs, rowLookup (x :: xs) (v :: vs) c = rowLookup xs vs c := by
        intro c hc
        exact rowLookup_cons_ne x xs v vs c (fun hxc => hnx (hxc ▸ hc))
      rw [List.map_congr_left hcong]
      exact ih vs hnd' hlen'

theorem mem_insertCol (acc : List String) (c d : String) :
    d ∈ insertCol acc c ↔ d ∈ acc ∨ d = c := by
  by_cases h : c ∈ acc
  · simp only [insertCol, if_pos h]
    constructor
    · exact Or.inl
    · rintro (h1 | rfl)
      · exact h1
      · exact h
  · simp [insertCol, h]

theorem insertCol_nodup (acc : List String) (c : String) (h : acc.Nodup) :
    (insertCol acc c).Nodup := by
  by_cases hc : c ∈ acc
  · simpa [insertCol, hc] using h
  · simp only [insertCol, if_neg hc]
    rw [List.nodup_append]
    refine ⟨h, List.nodup_singleton c, ?_⟩
    intro a ha hb
    simp only [List.mem_singleton] at hb
    subst hb
    exact hc ha

theorem mem_foldl_insertCol (l : List String) :
    ∀ acc d, d ∈ l.foldl insertCol acc ↔ d ∈ acc ∨ d ∈ l := by
  induction l with
  | nil => simp
  | cons x xs ih =>
    intro acc d
    simp only [List.foldl_cons, ih, mem_insertCol, List.mem_cons]
    tauto

theorem foldl_insertCol_nodup (l : List String) :
    ∀ acc, acc.Nodup → (l.foldl insertCol acc).Nodup := by
  induction l with
  | nil => intro acc h; simpa using h
  | cons x xs ih => intro acc h; exact ih _ (insertCol_nodup acc x h)

theorem foldl_insertCol_of_subset (l : List String) :
    ∀ acc, (∀ c ∈ l, c ∈ acc) → l.foldl insertCol acc = acc := by
  induction l with
  | nil => intro acc _; rfl
  | cons x xs ih =>
    intro acc h
    have hx : x ∈ acc := h x (List.mem_cons_self x xs)
    simp only [List.foldl_cons, insertCol, if_pos hx]
    exact ih acc (fun c hc => h c (List.mem_cons_of_mem x hc))

theorem foldl_insertCol_of_nodup (l : List String) :
    ∀ acc, (acc ++ l).Nodup → l.foldl insertCol acc = acc ++ l := by
  induction l with
  | nil => intro acc _; simp
  | cons x xs ih =>
    intro acc h
    have hx : x ∉ acc := by
      intro hmem
      have := List.disjoint_of_nodup_append h
      exact this hmem (List.mem_cons_self x xs)
    simp only [List.foldl_cons, insertCol, if_neg hx]
    have h' : (acc ++ [x] ++ xs).Nodup := by simpa using h
    rw [ih (acc ++ [x]) h']
    simp

theorem mem_foldl_tables (ts : List Table) :
    ∀ acc c, c ∈ ts.foldl (fun acc t => t.cols.foldl insertCol acc) acc
      ↔ c ∈ acc ∨ ∃ t ∈ ts, c ∈ t.cols := by
  induction ts with
  | nil => simp
  | cons t ts ih =>
    intro acc c
    simp only [List.foldl_cons, ih, mem_foldl_insertCol, List.mem_cons]
    constructor
    · rintro ((h1 | h2) | ⟨u, hu, hc⟩)
      · exact Or.inl h1
      · exact Or.inr ⟨t, Or.inl rfl, h2⟩
      · exact Or.inr ⟨u, Or.inr hu, hc⟩
    · rintro (h1 | ⟨u, (rfl | hu), hc⟩)
      · exact Or.inl (Or.inl h1)
      · exact Or.inl (Or.inr hc)
      · exact Or.inr ⟨u, hu, hc⟩

theorem mem_unionCols (ts : List Table) (c : String) :
    c ∈ unionCols ts ↔ ∃ t ∈ ts, c ∈ t.cols := by
  rw [unionCols, mem_foldl_tables]
  simp

theorem foldl_tables_nodup (ts : List Table) :
    ∀ acc : List String, acc.Nodup →
      (ts.foldl (fun acc t => t.cols.foldl insertCol acc) acc).Nodup := by
  induction ts with
  | nil => intro acc h; simpa using h
  | cons t ts ih => intro acc h; exact ih _ (foldl_insertCol_nodup t.cols acc h)

theorem unionCols_nodup (ts : List Table) : (unionCols ts).Nodup :=
  foldl_tables_nodup ts [] List.nodup_nil

theorem foldl_tables_const (ts : List Table) :
    ∀ acc : List String, (∀ t ∈ ts, ∀ c ∈ t.cols, c ∈ acc) →
      ts.foldl (fun acc t => t.cols.foldl insertCol acc) acc = acc := by
  induction ts with
  | nil => intro acc _; rfl
  | cons t ts ih =>
    intro acc h
    simp only [List.foldl_cons]
    rw [foldl_insertCol_of_subset t.cols acc (h t (List.mem_cons_self t ts))]
    exact ih acc (fun u hu c hc => h u (List.mem_cons_of_mem t hu) c hc)

theorem unionCols_cons_same (t : Table) (ts : List Table)
    (hnd : t.cols.Nodup) (hall : ∀ u ∈ ts, u.cols = t.cols) :
    unionCols (t :: ts) = t.cols := by
  rw [unionCols, List.foldl_cons]
  have h1 : t.cols.foldl insertCol [] = t.cols := by
    have := foldl_insertCol_of_nodup t.cols [] (by simpa using hnd)
    simpa using this
  rw [h1]
  exact foldl_tables_const ts t.cols (fun u hu c hc => (hall u hu) ▸ hc)

theorem collect_concatDR (ps : List LazyPlan) :
    collect (.concatDR ps) = diagonalRelaxedConcat (ps.map collect) := by
  rw [collect]
  congr 1
  exact List.attach_map_val ps collect

theorem mapE_ok_of_forall (f : α → Except Err β) :
    ∀ l : List α, (∀ x ∈ l, ∃ y, f x = .ok y) → ∃ ys, mapE f l = .ok ys := by
  intro l h
  induction l with
  | nil => exact ⟨[], rfl⟩
  | cons x xs ih =>
    obtain ⟨y, hy⟩ := h x (List.mem_cons_self x xs)
    obtain ⟨ys, hys⟩ := ih (fun a ha => h a (List.mem_cons_of_mem x ha))
    exact ⟨y :: ys, by simp [mapE, hy, hys]⟩

theorem mapE_error_of_mem (f : α → Except Err β) :
    ∀ l : List α, ∀ x ∈ l, (∀ y, f x ≠ .ok y) → ∃ e, mapE f l = .error e := by
  intro l
  induction l with
  | nil => intro x hx; exact absurd hx (List.not_mem_nil x)
  | cons a as ih =>
    intro x hx hno
    rcases List.mem_cons.mp hx with rfl | hmem
    · cases hfa : f x with
      | error e => exact ⟨e, by simp [mapE, hfa]⟩
      | ok y => exact absurd hfa (hno y)
    · cases hfa : f a with
      | error e => exact ⟨e, by simp [mapE, hfa]⟩
      | ok y =>
        obtain ⟨e, he⟩ := ih x hmem hno
        exact ⟨e, by simp [mapE, hfa, he]⟩

theorem readCsv_cols (f : CsvFile) : (readCsv f).cols = f.header := rfl

theorem readCsv_WF (f : CsvFile) (h1 : f.header.Nodup)
    (h2 : ∀ rec ∈ f.records, rec.length = f.header.length) : (readCsv f).WF := by
  refine ⟨h1, ?_⟩
  intro r hr
  simp only [readCsv, List.mem_map] at hr
  obtain ⟨rec, hrec, rfl⟩ := hr
  simpa using h2 rec hrec

/-! ### Example fixtures (the spec's `a.csv` / `b.csv`) -/

/-- The spec's example `a.csv`: columns `x,y`, one record. -/
def aCsv : CsvFile := ⟨["x", "y"], [["1", "2"]]⟩

/-- The spec's example `b.csv`: columns `x,z`, one record. -/
def bCsv : CsvFile := ⟨["x", "z"], [["3", "4"]]⟩

/-! ### Claims -/

/-- C1: relaxed / diagonal concatenation of any list of CSV files succeeds
(it is a total function) and produces a table whose column set is the union
of the inputs' column sets; its rows are the inputs' rows in input order,
aligned to the union schema; and a row coming from a file that lacks a given
column has a null value in that column. -/
theorem diagonal_relaxed_concat_correct (fs : List CsvFile) :
    (∀ c, c ∈ (diagonalRelaxedConcat (fs.map readCsv)).cols ↔ ∃ f ∈ fs, c ∈ f.header)
    ∧ (diagonalRelaxedConcat (fs.map readCsv)).rows
        = (fs.map (fun f => (readCsv f).rows.map
            (fun r => alignRow f.header r (unionCols (fs.map readCsv))))).flatten
    ∧ ∀ f ∈ fs, ∀ r ∈ (readCsv f).rows, ∀ c, c ∉ f.header →
        rowLookup (diagonalRelaxedConcat (fs.map readCsv)).cols
          (alignRow f.header r (unionCols (fs.map readCsv))) c = none := by
  refine ⟨?_, ?_, ?_⟩
  · intro c
    show c ∈ unionCols (fs.map readCsv) ↔ _
    rw [mem_unionCols]
    constructor
    · rintro ⟨t, ht, hc⟩
      rcases List.mem_map.mp ht with ⟨f, hf, rfl⟩
      exact ⟨f, hf, hc⟩
    · rintro ⟨f, hf, hc⟩
      exact ⟨readCsv f, List.mem_map_of_mem readCsv hf, hc⟩
  · show ((fs.map readCsv).map
        (fun t => t.rows.map (fun r => alignRow t.cols r (unionCols (fs.map readCsv))))).flatten = _
    rw [List.map_map]
    rfl
  · intro f _ r _ c hc
    show rowLookup (unionCols (fs.map readCsv))
        (alignRow f.header r (unionCols (fs.map readCsv))) c = none
    rw [alignRow, rowLookup_map_self]
    by_cases h : c ∈ unionCols (fs.map readCsv)
    · simp [h, rowLookup_of_not_mem f.header r c hc]
    · simp [h]

/-- Witness for C1 at the spec's example pair: `z` is missing from `a.csv`,
and the aligned row coming from `a.csv` has a null `z` value. -/
theorem diagonal_relaxed_concat_correct_witness :
    "z" ∉ aCsv.header
    ∧ rowLookup (diagonalRelaxedConcat ([aCsv, bCsv].map readCsv)).cols
        (alignRow aCsv.header [some "1", some "2"] (unionCols ([aCsv, bCsv].map readCsv)))
        "z" = none :=
  ⟨by decide,
   (diagonal_relaxed_concat_correct [aCsv, bCsv]).2.2 aCsv (by decide)
     [some "1", some "2"] (by decide) "z" (by decide)⟩

/-- C2: strict / naive concatenation of CSV files raises a schema-mismatch
error, rather than producing a table, whenever two of the input files have
differing column sets. -/
theorem strict_concat_mismatch (fs : List CsvFile) (f g : CsvFile)
    (hf : f ∈ fs) (hg : g ∈ fs)
    (hdiff : ¬ (∀ c, c ∈ f.header ↔ c ∈ g.header)) :
    strictConcat (fs.map readCsv) = .error .schemaMismatch := by
  cases fs with
  | nil => exact absurd hf (List.not_mem_nil f)
  | cons f0 fs' =>
    have hcheck : ¬ ((fs'.map readCsv).all (fun u => u.cols == (readCsv f0).cols) = true) := by
      intro hall
      have heq : ∀ u ∈ fs'.map readCsv, u.cols = (readCsv f0).cols := by
        intro u hu
        exact beq_iff_eq.mp (List.all_eq_true.mp hall u hu)
      have hhead : ∀ p ∈ f0 :: fs', p.header = f0.header := by
        intro p hp
        rcases List.mem_cons.mp hp with rfl | hp'
        · rfl
        · exact heq (readCsv p) (List.mem_map_of_mem readCsv hp')
      exact hdiff (fun c => by rw [hhead f hf, hhead g hg])
    show strictConcat (readCsv f0 :: fs'.map readCsv) = _
    rw [strictConcat, if_neg hcheck]

/-- Witness for C2: the spec's example pair `a.csv` / `b.csv` has differing
column sets and strict concatenation returns the schema-mismatch error. -/
theorem strict_concat_mismatch_witness :
    (aCsv ∈ [aCsv, bCsv] ∧ bCsv ∈ [aCsv, bCsv]
      ∧ ¬ (∀ c, c ∈ aCsv.header ↔ c ∈ bCsv.header))
    ∧ strictConcat ([aCsv, bCsv].map readCsv) = .error .schemaMismatch := by
  have hdiff : ¬ (∀ c, c ∈ aCsv.header ↔ c ∈ bCsv.header) := fun hall =>
    absurd ((hall "y").mp (by decide)) (by decide)
  exact ⟨⟨by decide, by decide, hdiff⟩,
    strict_concat_mismatch [aCsv, bCsv] aCsv bCsv (by decide) (by decide) hdiff⟩

/-- C3: when every input file has the same (well-formed) schema, strict
concatenation succeeds and returns exactly the table that relaxed / diagonal
concatenation produces. -/
theorem strict_eq_relaxed_same_schema (f0 : CsvFile) (fs : List CsvFile)
    (hwf : ∀ f ∈ f0 :: fs, f.header.Nodup ∧ ∀ rec ∈ f.records, rec.length = f.header.length)
    (hsame : ∀ f ∈ f0 :: fs, f.header = f0.header) :
    strictConcat ((f0 :: fs).map readCsv)
      = .ok (diagonalRelaxedConcat ((f0 :: fs).map readCsv)) := by
  have hts : ∀ t ∈ (f0 :: fs).map readCsv, t.cols = f0.header := by
    intro t ht
    rcases List.mem_map.mp ht with ⟨f, hf, rfl⟩
    exact hsame f hf
  have hnd0 : f0.header.Nodup := (hwf f0 (List.mem_cons_self f0 fs)).1
  have hucols : unionCols ((f0 :: fs).map readCsv) = f0.header := by
    rw [List.map_cons]
    exact unionCols_cons_same (readCsv f0) (fs.map readCsv) hnd0
      (fun u hu => hts u (by rw [List.map_cons]; exact List.mem_cons_of_mem _ hu))
  have hrows : ((f0 :: fs).map readCsv).map
      (fun t => t.rows.map (fun r => alignRow t.cols r (unionCols ((f0 :: fs).map readCsv))))
      = ((f0 :: fs).map readCsv).map Table.rows := by
    apply List.map_congr_left
    intro t ht
    rcases List.mem_map.mp ht with ⟨f, hf, rfl⟩
    have h1 : (readCsv f).cols = f0.header := hts (readCsv f) ht
    have h2 : ∀ r ∈ (readCsv f).rows, r.length = (readCsv f).cols.length :=
      (readCsv_WF f (hwf f hf).1 (hwf f hf).2).2
    have : (readCsv f).rows.map (fun r => alignRow (readCsv f).cols r
        (unionCols ((f0 :: fs).map readCsv))) = (readCsv f).rows.map (fun r => r) := by
      apply List.map_congr_left
      intro r hr
      rw [hucols, ← h1]
      exact alignRow_self (readCsv f).cols r (h1 ▸ hnd0) (h2 r hr)
    rw [this]
    simp
  have hcheck : (fs.map readCsv).all (fun u => u.cols == (readCsv f0).cols) = true := by
    rw [List.all_eq_true]
    intro u hu
    exact beq_iff_eq.mpr (hts u (by rw [List.map_cons]; exact List.mem_cons_of_mem _ hu))
  show strictConcat (readCsv f0 :: fs.map readCsv) = _
  rw [strictConcat, if_pos hcheck]
  rw [diagonalRelaxedConcat]
  rw [show (readCsv f0 :: fs.map readCsv) = (f0 :: fs).map readCsv from rfl, hrows, hucols]
  rfl

/-- Witness for C3 at two files with the identical schema `x,y`. -/
theorem strict_eq_relaxed_same_schema_witness :
    ((∀ f ∈ [aCsv, ⟨["x", "y"], [["5", "6"]]⟩],
        f.header.Nodup ∧ ∀ rec ∈ f.records, rec.length = f.header.length)
      ∧ (∀ f ∈ [aCsv, ⟨["x", "y"], [["5", "6"]]⟩], f.header = aCsv.header))
    ∧ strictConcat ([aCsv, ⟨["x", "y"], [["5", "6"]]⟩].map readCsv)
        = .ok (diagonalRelaxedConcat ([aCsv, ⟨["x", "y"], [["5", "6"]]⟩].map readCsv)) :=
  ⟨⟨by decide, by decide⟩,
   strict_eq_relaxed_same_schema aCsv [⟨["x", "y"], [["5", "6"]]⟩] (by decide) (by decide)⟩

/-- C4: file discovery keeps exactly the entries of the directory listing
whose name ends in `.csv` — a path is returned iff it is the join of `data`
with such an entry — and it keeps them in listing order (the filtered
listing is a sublist of the full listing); non-CSV entries are excluded.
Discovery only consumes the flat listing of the one directory, so nothing
is recursed into. -/
theorem csv_files_spec (all_files : List String) :
    csv_files all_files
        = (all_files.filter (fun c => strEndsWith c ".csv")).map (fun c => os_path_join "data" c)
    ∧ (∀ p, p ∈ csv_files all_files
        ↔ ∃ c, c ∈ all_files ∧ strEndsWith c ".csv" = true ∧ p = os_path_join "data" c)
    ∧ (all_files.filter (fun c => strEndsWith c ".csv")).Sublist all_files := by
  refine ⟨rfl, ?_, List.filter_sublist all_files⟩
  intro p
  simp only [csv_files, List.mem_map, List.mem_filter]
  constructor
  · rintro ⟨c, ⟨hc1, hc2⟩, rfl⟩
    exact ⟨c, hc1, hc2, rfl⟩
  · rintro ⟨c, hc1, hc2, rfl⟩
    exact ⟨c, ⟨hc1, hc2⟩, rfl⟩

/-- C6: materializing the lazy pipeline (scan every file, concatenate the
lazy frames with the relaxed diagonal policy, collect) yields exactly the
table the eager pipeline (read every file, then concatenate) produces. -/
theorem lazy_collect_eq_eager (fs : List CsvFile) :
    collect (LazyPlan.concatDR (fs.map LazyPlan.scan))
      = diagonalRelaxedConcat (fs.map readCsv) := by
  rw [collect_concatDR, List.map_map]
  apply congrArg
  apply List.map_congr_left
  intro f _
  show collect (LazyPlan.scan f) = readCsv f
  rw [collect]

/-- C7: inspection returns the first `n` rows (a prefix of the table's rows,
over the same columns) and the table's column-name list, and leaves the
table itself unchanged; it is a total function, so it cannot fail on any
successfully combined table. -/
theorem inspect_spec (t : Table) (n : Nat) :
    (inspect t n).2.2 = t
    ∧ (inspect t n).1.cols = t.cols
    ∧ (inspect t n).1.rows = t.rows.take n
    ∧ (inspect t n).2.1 = t.cols
    ∧ (inspect t n).1.rows ++ t.rows.drop n = t.rows
    ∧ (inspect t n).1.rows.length = min n t.rows.length := by
  refine ⟨rfl, rfl, rfl, rfl, List.take_append_drop n t.rows, ?_⟩
  simp [inspect, Table.head]

/-- C10: relaxed / diagonal concatenation of the single table read from one
well-formed CSV file is that table itself — same columns, same rows, same
values. -/
theorem diagonal_relaxed_singleton (f : CsvFile)
    (h1 : f.header.Nodup) (h2 : ∀ rec ∈ f.records, rec.length = f.header.length) :
    diagonalRelaxedConcat [readCsv f] = readCsv f := by
  have hu : unionCols [readCsv f] = f.header :=
    unionCols_cons_same (readCsv f) [] h1 (fun u hu => absurd hu (List.not_mem_nil u))
  have hlen := (readCsv_WF f h1 h2).2
  have hrows : (readCsv f).rows.map (fun r => alignRow (readCsv f).cols r f.header)
      = (readCsv f).rows := by
    have hcongr : ∀ r ∈ (readCsv f).rows,
        alignRow (readCsv f).cols r f.header = r := by
      intro r hr
      exact alignRow_self f.header r h1 (hlen r hr)
    rw [List.map_congr_left hcongr]
    simp
  rw [diagonalRelaxedConcat, hu]
  simp only [List.map_cons, List.map_nil, List.flatten_cons, List.flatten_nil, List.append_nil]
  rw [hrows]
  rfl

/-- Witness for C10: concatenating the singleton list holding `a.csv`'s
table returns that table. -/
theorem diagonal_relaxed_singleton_witness :
    (aCsv.header.Nodup ∧ ∀ rec ∈ aCsv.records, rec.length = aCsv.header.length)
    ∧ diagonalRelaxedConcat [readCsv aCsv] = readCsv aCsv :=
  ⟨⟨by decide, by decide⟩, diagonal_relaxed_singleton aCsv (by decide) (by decide)⟩

/-! ### Environment fixtures for the script-level claims -/

/-- A world where `./data/` does not exist: listing already failed. -/
def envMissingDir : Env :=
  ⟨.error (.fsError "./data/"), fun p => .error (.fsError p), .error (.fsError "./data/")⟩

/-- A world where the directory lists one CSV but reading it fails. -/
def envBadRead : Env :=
  ⟨.ok ["a.csv"], fun p => .error (.fsError p), .ok []⟩

/-- A world where the listing and the per-path reads succeed but the
wildcard read fails. -/
def envBadGlob : Env :=
  ⟨.ok ["a.csv"], fun _ => .ok aCsv, .error (.fsError "data/*.csv")⟩

/-- C5: the script handles no errors. A missing data directory makes the
listing fail with a filesystem error naming the directory; a failed listing
aborts the whole run with that very error; a file whose read fails aborts
the run; and after a successful listing and successful reads, a failing
wildcard load aborts the run with its error. -/
theorem script_error_propagation (dirs : List (String × List String)) (env : Env)
    (e : Err) (entries : List String) :
    (dirs.lookup "./data/" = none →
      listdir dirs "./data/" = .error (.fsError "./data/"))
    ∧ (env.listing = .error e → runScript env = .error e)
    ∧ (env.listing = .ok entries →
        (∃ p ∈ csv_files entries, ∀ y, env.readFile p ≠ .ok y) →
        ∃ e2, runScript env = .error e2)
    ∧ (env.listing = .ok entries →
        (∀ p ∈ csv_files entries, ∃ y, env.readFile p = .ok y) →
        env.globFiles = .error e →
        runScript env = .error e) := by
  refine ⟨?_, ?_, ?_, ?_⟩
  · intro h
    simp [listdir, h]
  · intro h
    rw [runScript, h]
    rfl
  · rintro hl ⟨p, hp, hno⟩
    obtain ⟨e2, he2⟩ := mapE_error_of_mem env.readFile (csv_files entries) p hp hno
    refine ⟨e2, ?_⟩
    rw [runScript, hl]
    show (mapE env.readFile (csv_files entries)).bind _ = _
    rw [he2]
    rfl
  · intro hl hreads hglob
    obtain ⟨ys, hys⟩ := mapE_ok_of_forall env.readFile (csv_files entries) hreads
    rw [runScript, hl]
    show (mapE env.readFile (csv_files entries)).bind _ = _
    rw [hys]
    show env.globFiles.bind _ = _
    rw [hglob]
    rfl

/-- Witness for C5: the four propagation facts at concrete worlds — an empty
directory table, a failed listing, a failing file read, a failing wildcard
read. -/
theorem script_error_propagation_witness :
    (([] : List (String × List String)).lookup "./data/" = none
      ∧ listdir [] "./data/" = .error (.fsError "./data/"))
    ∧ (envMissingDir.listing = .error (.fsError "./data/")
      ∧ runScript envMissingDir = .error (.fsError "./data/"))
    ∧ (envBadRead.listing = .ok ["a.csv"]
      ∧ ∃ e2, runScript envBadRead = .error e2)
    ∧ (envBadGlob.listing = .ok ["a.csv"]
      ∧ runScript envBadGlob = .error (.fsError "data/*.csv")) :=
  ⟨⟨rfl, (script_error_propagation [] envMissingDir (.fsError "./data/") []).1 rfl⟩,
   ⟨rfl, (script_error_propagation [] envMissingDir (.fsError "./data/") []).2.1 rfl⟩,
   ⟨rfl, (script_error_propagation [] envBadRead (.fsError "./data/") ["a.csv"]).2.2.1 rfl
     ⟨"data/a.csv", by decide, fun y h => Except.noConfusion h⟩⟩,
   ⟨rfl, (script_error_propagation [] envBadGlob (.fsError "data/*.csv") ["a.csv"]).2.2.2 rfl
     (fun p _ => ⟨aCsv, rfl⟩) rfl⟩⟩

/-- C8: the pandas combination stacks the per-file tables' rows in discovery
order — the combined rows are the per-file blocks in file order, each block
holding that file's rows in file order aligned to the union schema, with
the block's length equal to that file's record count — and `ignore_index`
renumbers the row index to `0..n-1` over the total row count instead of
keeping the per-file indices. -/
theorem pd_concat_blocks (fs : List CsvFile) :
    (pdConcatIgnoreIndex (fs.map pdReadCsv)).table.rows
        = (fs.map (fun f => (readCsv f).rows.map
            (fun r => alignRow f.header r (unionCols (fs.map readCsv))))).flatten
    ∧ (pdConcatIgnoreIndex (fs.map pdReadCsv)).index
        = List.range ((fs.map (fun f => f.records.length)).sum)
    ∧ ∀ f ∈ fs, ((readCsv f).rows.map
        (fun r => alignRow f.header r (unionCols (fs.map readCsv)))).length
        = f.records.length := by
  have htab : (fs.map pdReadCsv).map PdFrame.table = fs.map readCsv := by
    rw [List.map_map]
    rfl
  have hrows : (pdConcatIgnoreIndex (fs.map pdReadCsv)).table.rows
      = (fs.map (fun f => (readCsv f).rows.map
          (fun r => alignRow f.header r (unionCols (fs.map readCsv))))).flatten := by
    show (diagonalRelaxedConcat ((fs.map pdReadCsv).map PdFrame.table)).rows = _
    rw [htab]
    show ((fs.map readCsv).map
        (fun t => t.rows.map (fun r => alignRow t.cols r (unionCols (fs.map readCsv))))).flatten = _
    rw [List.map_map]
    rfl
  have hblock : ∀ f ∈ fs, ((readCsv f).rows.map
      (fun r => alignRow f.header r (unionCols (fs.map readCsv)))).length
      = f.records.length := by
    intro f _
    simp [readCsv]
  refine ⟨hrows, ?_, hblock⟩
  show List.range (pdConcatIgnoreIndex (fs.map pdReadCsv)).table.rows.length = _
  rw [hrows, List.length_flatten, List.map_map]
  refine congrArg (fun l : List Nat => List.range l.sum) (List.map_congr_left ?_)
  intro f hf
  simpa [Function.comp] using hblock f hf

/-- Witness for C8 at the example pair: the combined index is renumbered over
the total row count, and the block coming from `a.csv` has `a.csv`'s row
count. -/
theorem pd_concat_blocks_witness :
    (pdConcatIgnoreIndex ([aCsv, bCsv].map pdReadCsv)).index
        = List.range (([aCsv, bCsv].map (fun f => f.records.length)).sum)
    ∧ aCsv ∈ [aCsv, bCsv]
    ∧ ((readCsv aCsv).rows.map
        (fun r => alignRow aCsv.header r (unionCols ([aCsv, bCsv].map readCsv)))).length
        = aCsv.records.length :=
  ⟨(pd_concat_blocks [aCsv, bCsv]).2.1, by decide,
   (pd_concat_blocks [aCsv, bCsv]).2.2 aCsv (by decide)⟩

/-- C9: in a directory where every `.csv`-suffixed entry is a non-hidden
regular file, listing-based discovery (`os.listdir` + suffix filter) selects
exactly the names the `*.csv` wildcard reads; and the listing-based filter
additionally admits any `.csv`-suffixed entry — hidden or a subdirectory —
which the wildcard need not match. -/
theorem listing_discovery_vs_glob (entries : List DirEntry) :
    ((∀ e ∈ entries, strEndsWith e.name ".csv" = true →
        e.isFile = true ∧ strStartsWith e.name "." = false) →
      listingCsvNames entries = globCsvNames entries)
    ∧ ∀ e ∈ entries, strEndsWith e.name ".csv" = true →
        e.name ∈ listingCsvNames entries := by
  constructor
  · intro h
    induction entries with
    | nil => rfl
    | cons x xs ih =>
      have ihx := ih (fun e he => h e (List.mem_cons_of_mem x he))
      by_cases hcsv : strEndsWith x.name ".csv" = true
      · obtain ⟨hfile, hvis⟩ := h x (List.mem_cons_self x xs) hcsv
        simp only [listingCsvNames, globCsvNames, List.map_cons, List.filter_cons,
          hcsv, hfile, hvis] at ihx ⊢
        simp only [Bool.true_and, Bool.not_false, Bool.and_true, if_true]
        rw [List.map_cons]
        exact congrArg (x.name :: ·) ihx
      · have hcsv' : strEndsWith x.name ".csv" = false := by
          simpa using hcsv
        simp only [listingCsvNames, globCsvNames, List.map_cons, List.filter_cons,
          hcsv', Bool.and_false, Bool.false_and, if_false] at ihx ⊢
        exact ihx
  · intro e he hcsv
    exact List.mem_filter.mpr ⟨List.mem_map_of_mem DirEntry.name he, hcsv⟩

/-- Witness for C9 at a directory with one plain CSV file, one text file, one
hidden CSV and one `.csv`-suffixed subdirectory: the equality applies to the
first two entries alone, and the listing filter also admits the hidden CSV. -/
theorem listing_discovery_vs_glob_witness :
    listingCsvNames [DirEntry.mk "a.csv" true, DirEntry.mk "notes.txt" true]
        = globCsvNames [DirEntry.mk "a.csv" true, DirEntry.mk "notes.txt" true]
    ∧ DirEntry.name ⟨".hidden.csv", true⟩
        ∈ listingCsvNames [DirEntry.mk "b.csv" true, DirEntry.mk ".hidden.csv" true] :=
  ⟨(listing_discovery_vs_glob [DirEntry.mk "a.csv" true, DirEntry.mk "notes.txt" true]).1
     (by decide),
   (listing_discovery_vs_glob [DirEntry.mk "b.csv" true, DirEntry.mk ".hidden.csv" true]).2
     ⟨".hidden.csv", true⟩ (by decide) (by decide)⟩

end CsvDiff
